import Mathlib

/-!
# Verification of the `GATLayer` module (`gcn_node_classification/gat.py`)

Shallow embedding of the single Graph Attention Network layer implemented by
the repository.  Tensors are embedded as curried functions over `Fin`
(`Fin B → Fin N → … → ℝ`), floating-point numbers as real numbers, and the
fallible masked-scatter step (`attn_matrix[mask] = attn_logits.reshape(-1)`)
as an `Option`-returning operation that fails exactly when the tensor
runtime's broadcast rules would raise.

The embedding follows the source line by line:

* `GATLayer.init` embeds `GATLayer.__init__` (the divisibility assert and the
  per-head width computation; the Xavier-drawn parameter values are taken as
  arguments since randomness is outside the model).
* `projectFeats` embeds `self.projection(node_feats).view(B, N, H, -1)`.
* `edgesList` embeds `adj_matrix.nonzero(as_tuple=False)` (row-major order).
* `attnLogitEdge` embeds the `index_select`/`cat`/`einsum`/`leakyrelu`
  pipeline computing one logit per edge and head, going through the flattened
  `[B*N, H, w]` view exactly as the source does.
* `scatterAttn` embeds `new_zeros(...).fill_(-9e15)` followed by the boolean
  masked assignment, pairing the k-th `True` position of the mask (row-major)
  with the k-th value, `none` when the value count can not be broadcast to
  the number of selected positions.
* `attnProbs` embeds `F.softmax(attn_matrix, dim=2)`.
* `headOut` embeds `torch.einsum('bijh,bjhc->bihc', attn_probs, node_feats)`.
* `combineHeads` embeds the final reshape (concatenation) / `mean(dim=2)`.
* `forwardFull`/`forward` chain the steps; `forwardFull` additionally returns
  the tensor printed by the debug flag (the permuted attention probabilities)
  so properties of the debug path can be stated.
-/

noncomputable section

open scoped Classical
open Finset

/-- Per-head output width chosen by `__init__`: when heads are concatenated
the requested `c_out` is divided by `num_heads` (`c_out = c_out // num_heads`
after the assert), otherwise it is kept as is. -/
def perHeadWidth (c_out num_heads : ℕ) (concat_heads : Bool) : ℕ :=
  if concat_heads then c_out / num_heads else c_out

/-- The learned state of a `GATLayer`: the negative slope `alpha` of the
leaky rectifier, the bias-free projection weight `W` (PyTorch layout
`[out_features, in_features]` with `out_features = perHeadWidth * num_heads`)
and the per-head attention vector `a` of shape `[num_heads, 2 * perHeadWidth]`. -/
structure GATLayer (c_in c_out num_heads : ℕ) (concat_heads : Bool) where
  alpha : ℝ
  W : Fin (perHeadWidth c_out num_heads concat_heads * num_heads) → Fin c_in → ℝ
  a : Fin num_heads → Fin (2 * perHeadWidth c_out num_heads concat_heads) → ℝ

/-- Embeds `GATLayer.__init__`: when `concat_heads` is set the construction
asserts `c_out % num_heads == 0` and fails (returns `none`, the embedding of
the raised `AssertionError`) otherwise.  The parameter values drawn by the
Xavier initializer are passed in, since the embedding has no randomness. -/
def GATLayer.init (c_in c_out num_heads : ℕ) (concat_heads : Bool) (alpha : ℝ)
    (W : Fin (perHeadWidth c_out num_heads concat_heads * num_heads) → Fin c_in → ℝ)
    (a : Fin num_heads → Fin (2 * perHeadWidth c_out num_heads concat_heads) → ℝ) :
    Option (GATLayer c_in c_out num_heads concat_heads) :=
  if concat_heads ∧ c_out % num_heads ≠ 0 then none
  else some ⟨alpha, W, a⟩

/-- `nn.LeakyReLU(alpha)`: identity on nonnegative inputs, multiplication by
the negative slope `alpha` below zero. -/
def leakyReLU (alpha x : ℝ) : ℝ :=
  if x < 0 then alpha * x else x

/-- The sentinel `-9e15` the attention matrix is pre-filled with. -/
def sentinel : ℝ := -(9 * 10 ^ 15)

/-- Row-major flattening of a `(head, channel)` pair into the output axis of
the projection (the `.view(B, N, H, -1)` splits the last axis of width
`w * H` into `[H, w]` row-major, so head `h`, channel `c` sits at `h*w + c`). -/
def flatHW {w H : ℕ} (h : Fin H) (c : Fin w) : Fin (w * H) :=
  ⟨h.1 * w + c.1, by
    have hc : c.1 < w := c.2
    calc h.1 * w + c.1 < h.1 * w + w := by omega
      _ = (h.1 + 1) * w := by ring
      _ ≤ H * w := Nat.mul_le_mul_right w h.2
      _ = w * H := Nat.mul_comm H w⟩

/-- Row-major flattening of a `(batch, node)` pair: the
`.view(batch_size*num_nodes, H, -1)` puts batch `b`, node `i` at `b*N + i`. -/
def flatBN {B N : ℕ} (b : Fin B) (i : Fin N) : Fin (B * N) :=
  ⟨b.1 * N + i.1, by
    have hi : i.1 < N := i.2
    calc b.1 * N + i.1 < b.1 * N + N := by omega
      _ = (b.1 + 1) * N := by ring
      _ ≤ B * N := Nat.mul_le_mul_right N b.2⟩

variable {B N c_in c_out H : ℕ} {concat_heads : Bool}

/-- Embeds `self.projection(node_feats).view(batch_size, num_nodes, H, -1)`:
the bias-free linear layer computes `y_o = Σ_k x_k * W[o, k]`, and the view
separates the output axis into per-head sub-vectors. -/
def projectFeats (ℓ : GATLayer c_in c_out H concat_heads)
    (x : Fin B → Fin N → Fin c_in → ℝ) :
    Fin B → Fin N → Fin H → Fin (perHeadWidth c_out H concat_heads) → ℝ :=
  fun b n h c => ∑ k, x b n k * ℓ.W (flatHW h c) k

/-- Embeds `node_feats.view(batch_size*num_nodes, H, -1)`: the flattened
view of the projected features, indexed by `b*N + i`. -/
def nodeFeatsFlat (pf : Fin B → Fin N → Fin H → Fin (perHeadWidth c_out H concat_heads) → ℝ)
    (p : Fin (B * N)) : Fin H → Fin (perHeadWidth c_out H concat_heads) → ℝ :=
  pf ⟨p.1 / N, by
      have hp := p.2
      exact Nat.div_lt_of_lt_mul (Nat.mul_comm B N ▸ hp)⟩
    ⟨p.1 % N, by
      have hp := p.2
      have hN : 0 < N := by
        rcases Nat.eq_zero_or_pos N with h | h
        · have h0 : B * N = 0 := by rw [h, Nat.mul_zero]
          omega
        · exact h
      exact Nat.mod_lt _ hN⟩

/-- `torch.cat([u, v], dim=-1)` on two vectors of equal width `w`:
the first `w` entries come from `u`, the last `w` from `v`. -/
def concatVec {w : ℕ} (u v : Fin w → ℝ) (c : Fin (2 * w)) : ℝ :=
  if h : c.1 < w then u ⟨c.1, h⟩
  else v ⟨c.1 - w, by have := c.2; omega⟩

/-- Row-major enumeration of all `(batch, row, column)` index triples of a
`[B, N, N]` tensor, the order in which `torch.nonzero` reports indices. -/
def allTriples (B N : ℕ) : List (Fin B × Fin N × Fin N) :=
  (List.finRange B).flatMap fun b =>
    (List.finRange N).flatMap fun i =>
      (List.finRange N).map fun j => (b, i, j)

/-- Embeds `edges = adj_matrix.nonzero(as_tuple=False)`: the row-major list
of index triples whose adjacency entry is nonzero. -/
def edgesList (adj : Fin B → Fin N → Fin N → ℝ) : List (Fin B × Fin N × Fin N) :=
  (allTriples B N).filter fun t => decide (adj t.1 t.2.1 t.2.2 ≠ 0)

/-- Embeds the per-edge, per-head attention logit of the source: look the two
endpoints up in the flattened `[B*N, H, w]` view at the flat indices
`edges[:,0]*N + edges[:,1]` (row, the destination) and
`edges[:,0]*N + edges[:,2]` (column, the source), concatenate row-first,
contract with `self.a` (`einsum('bhc,hc->bh')`) and apply the leaky
rectifier. -/
def attnLogitEdge (ℓ : GATLayer c_in c_out H concat_heads)
    (x : Fin B → Fin N → Fin c_in → ℝ)
    (b : Fin B) (i j : Fin N) (h : Fin H) : ℝ :=
  leakyReLU ℓ.alpha
    (∑ c : Fin (2 * perHeadWidth c_out H concat_heads),
      concatVec (fun c' => nodeFeatsFlat (projectFeats ℓ x) (flatBN b i) h c')
        (fun c' => nodeFeatsFlat (projectFeats ℓ x) (flatBN b j) h c') c * ℓ.a h c)

/-- Row-major enumeration of all `(batch, row, column, head)` index
quadruples of the `[B, N, N, H]` attention matrix. -/
def allQuads (B N H : ℕ) : List (Fin B × Fin N × Fin N × Fin H) :=
  (allTriples B N).flatMap fun t =>
    (List.finRange H).map fun h => (t.1, t.2.1, t.2.2, h)

/-- The `True` positions, in row-major order, of the boolean mask
`adj_matrix[..., None].repeat(1, 1, 1, num_heads) == 1`. -/
def maskPositions (adj : Fin B → Fin N → Fin N → ℝ) (H : ℕ) :
    List (Fin B × Fin N × Fin N × Fin H) :=
  (allQuads B N H).filter fun q => decide (adj q.1 q.2.1 q.2.2.1 = 1)

/-- The flattened value list `attn_logits.reshape(-1)`: for each edge in
`edges` order, its `num_heads` logits in head order. -/
def logitValues (ℓ : GATLayer c_in c_out H concat_heads)
    (x : Fin B → Fin N → Fin c_in → ℝ) (adj : Fin B → Fin N → Fin N → ℝ) : List ℝ :=
  (edgesList adj).flatMap fun t =>
    (List.finRange H).map fun h => attnLogitEdge ℓ x t.1 t.2.1 t.2.2 h

/-- Embeds the masked scatter
`attn_matrix = attn_logits.new_zeros(adj.shape + (H,)).fill_(-9e15);`
`attn_matrix[adj[..., None].repeat(1,1,1,H) == 1] = attn_logits.reshape(-1)`.
The boolean masked assignment writes the k-th value to the k-th selected
position (both in row-major order) when the counts agree; a single value
broadcasts over any number of selected positions; any other count mismatch
raises a broadcast `RuntimeError` in the tensor runtime, embedded as
`none`. -/
def scatterAttn (ℓ : GATLayer c_in c_out H concat_heads)
    (x : Fin B → Fin N → Fin c_in → ℝ) (adj : Fin B → Fin N → Fin N → ℝ) :
    Option (Fin B → Fin N → Fin N → Fin H → ℝ) :=
  let ps := maskPositions adj H
  let vs := logitValues ℓ x adj
  if ps.length = vs.length then
    some fun b i j h => (((ps.zip vs).lookup (b, i, j, h)).getD sentinel)
  else if vs.length = 1 then
    some fun b i j h => if (b, i, j, h) ∈ ps then vs.headI else sentinel
  else none

/-- Embeds `F.softmax(attn_matrix, dim=2)`: per batch, destination node and
head, the softmax across the source-node axis. -/
def attnProbs (M : Fin B → Fin N → Fin N → Fin H → ℝ) :
    Fin B → Fin N → Fin N → Fin H → ℝ :=
  fun b i j h => Real.exp (M b i j h) / ∑ k, Real.exp (M b i k h)

/-- Embeds `torch.einsum('bijh,bjhc->bihc', attn_probs, node_feats)`: each
destination's per-head output is the attention-weighted sum of the projected
source features. -/
def headOut {w : ℕ} (probs : Fin B → Fin N → Fin N → Fin H → ℝ)
    (pf : Fin B → Fin N → Fin H → Fin w → ℝ) :
    Fin B → Fin N → Fin H → Fin w → ℝ :=
  fun b i h c => ∑ j, probs b i j h * pf b j h c

/-- Width of the tensor `forward` returns: `w * H` after the concatenating
reshape, `w` after `mean(dim=2)`. -/
def outWidth (c_out H : ℕ) (concat_heads : Bool) : ℕ :=
  cond concat_heads (perHeadWidth c_out H concat_heads * H)
    (perHeadWidth c_out H concat_heads)

/-- Embeds the head-combination step: `reshape(batch_size, num_nodes, -1)`
(concatenating the per-head slices in head order) when `concat_heads`, else
`mean(dim=2)`. -/
def combineHeads {w : ℕ} :
    (concat : Bool) → (Fin B → Fin N → Fin H → Fin w → ℝ) →
    Fin B → Fin N → Fin (cond concat (w * H) w) → ℝ
  | true, t => fun b n d =>
      t b n ⟨d.1 / w, by
          have hd : d.1 < w * H := d.2
          exact Nat.div_lt_of_lt_mul hd⟩
        ⟨d.1 % w, by
          have hd : d.1 < w * H := d.2
          have hw : 0 < w := by
            rcases Nat.eq_zero_or_pos w with h | h
            · have h0 : w * H = 0 := by rw [h, Nat.zero_mul]
              omega
            · exact h
          exact Nat.mod_lt _ hw⟩
  | false, t => fun b n c => (∑ h, t b n h c) / (H : ℝ)

/-- The whole of `GATLayer.forward`, keeping both the returned tensor and the
tensor the debug flag prints (`attn_probs.permute(0, 3, 1, 2)`, i.e. the
probabilities laid out `[B, H, N, N]`; `none` when the flag is off). -/
def forwardFull (ℓ : GATLayer c_in c_out H concat_heads)
    (x : Fin B → Fin N → Fin c_in → ℝ) (adj : Fin B → Fin N → Fin N → ℝ)
    (print_attn_probs : Bool) :
    Option ((Fin B → Fin N → Fin (outWidth c_out H concat_heads) → ℝ) ×
      Option (Fin B → Fin H → Fin N → Fin N → ℝ)) :=
  match scatterAttn ℓ x adj with
  | none => none
  | some M =>
    let probs := attnProbs M
    let printed := if print_attn_probs then some fun b h i j => probs b i j h else none
    some (combineHeads concat_heads (headOut probs (projectFeats ℓ x)), printed)

/-- The value `GATLayer.forward` returns. -/
def GATLayer.forward (ℓ : GATLayer c_in c_out H concat_heads)
    (x : Fin B → Fin N → Fin c_in → ℝ) (adj : Fin B → Fin N → Fin N → ℝ)
    (print_attn_probs : Bool) :
    Option (Fin B → Fin N → Fin (outWidth c_out H concat_heads) → ℝ) :=
  (forwardFull ℓ x adj print_attn_probs).map Prod.fst

/-- The caller-visible state a `forward` call can see: the layer's learned
parameters and the two caller-owned input tensors.  The source's only
in-place tensor writes (`fill_` and the masked assignment) target the tensor
freshly created by `new_zeros` inside the call, and the local rebinding of
`node_feats` does not write through to the argument, so the embedding of
`forward` threads this state and returns it unchanged. -/
structure GATEnv (B N c_in c_out H : ℕ) (concat_heads : Bool) where
  layer : GATLayer c_in c_out H concat_heads
  nodeFeats : Fin B → Fin N → Fin c_in → ℝ
  adjMatrix : Fin B → Fin N → Fin N → ℝ

/-- `GATLayer.forward` as a state transformer over the caller-visible
environment: the same step chain as `forwardFull`, reading every tensor from
the environment, paired with the environment the call leaves behind. -/
def forwardEnv (env : GATEnv B N c_in c_out H concat_heads) (print_attn_probs : Bool) :
    GATEnv B N c_in c_out H concat_heads ×
      Option (Fin B → Fin N → Fin (outWidth c_out H concat_heads) → ℝ) :=
  let pf := projectFeats env.layer env.nodeFeats
  let res :=
    match scatterAttn env.layer env.nodeFeats env.adjMatrix with
    | none => none
    | some M => some (combineHeads concat_heads (headOut (attnProbs M) pf))
  (env, res)

/-!
## List plumbing lemmas

The masked assignment pairs the k-th selected mask position with the k-th
flattened logit.  The lemmas below turn that positional pairing into a
per-position association: both the selected positions and the values are
`flatMap`s over the same edge list, so zipping them pairs each
`(edge, head)` quadruple with its own logit.
-/

/-- Filtering a `flatMap` by a predicate that is constant on each inner list
filters the outer list instead. -/
theorem filter_flatMap_factor {α β : Type} (l : List α) (g : α → List β)
    (p : β → Bool) (q : α → Bool) (hfac : ∀ a, ∀ x ∈ g a, p x = q a) :
    (l.flatMap g).filter p = (l.filter q).flatMap g := by
  induction l with
  | nil => simp
  | cons a l ih =>
    rw [List.flatMap_cons, List.filter_append, ih, List.filter_cons]
    by_cases hq : q a = true
    · rw [if_pos hq, List.flatMap_cons]
      congr 1
      rw [List.filter_eq_self]
      intro x hx
      rw [hfac a x hx, hq]
    · rw [if_neg hq]
      have : (g a).filter p = [] := by
        rw [List.filter_eq_nil_iff]
        intro x hx
        rw [hfac a x hx]
        exact hq
      rw [this, List.nil_append]

/-- Zipping two `flatMap`s of equal inner shape over the same list pairs the
inner elements pointwise. -/
theorem zip_flatMap_map {α β γ δ : Type} (l : List α) (ms : List β)
    (f : α → β → γ) (g : α → β → δ) :
    (l.flatMap fun a => ms.map (f a)).zip (l.flatMap fun a => ms.map (g a)) =
      l.flatMap fun a => ms.map fun m => (f a m, g a m) := by
  induction l with
  | nil => simp
  | cons a l ih =>
    rw [List.flatMap_cons, List.flatMap_cons, List.flatMap_cons,
      List.zip_append (by simp), ih, List.zip_map']

/-- `List.lookup` distributes over append, preferring the left list. -/
theorem lookup_append {α β : Type} [BEq α] (l₁ l₂ : List (α × β)) (k : α) :
    (l₁ ++ l₂).lookup k = ((l₁.lookup k).orElse fun _ => l₂.lookup k) := by
  induction l₁ with
  | nil => simp
  | cons e l₁ ih =>
    rcases e with ⟨a, b⟩
    rw [List.cons_append, List.lookup_cons, List.lookup_cons]
    cases h : k == a
    · simpa using ih
    · simp

/-- Looking up a key that belongs to a different edge misses every entry of
the per-head association list built for edge `t`. -/
theorem lookup_map_keys_miss {α β γ κT : Type} [BEq κT]
    (ms : List β) (t t₀ : α) (h₀ : β) (κ : α → β → κT) (v : α → β → γ)
    (hbeq : ∀ a a' b b', (κ a b == κ a' b') = true ↔ a = a' ∧ b = b')
    (ht : t₀ ≠ t) :
    ((ms.map fun h => (κ t h, v t h)).lookup (κ t₀ h₀)) = none := by
  induction ms with
  | nil => rfl
  | cons m ms ih =>
    rw [List.map_cons, List.lookup_cons]
    cases hcmp : (κ t₀ h₀ == κ t m)
    · exact ih
    · exact absurd ((hbeq _ _ _ _).mp hcmp).1 ht

/-- Looking up this edge's own key in the per-head association list built for
edge `t` finds the value at that head. -/
theorem lookup_map_keys_hit {α β γ κT : Type} [BEq κT]
    (ms : List β) (t : α) (h₀ : β) (κ : α → β → κT) (v : α → β → γ)
    (hbeq : ∀ a a' b b', (κ a b == κ a' b') = true ↔ a = a' ∧ b = b')
    (hmem : h₀ ∈ ms) :
    ((ms.map fun h => (κ t h, v t h)).lookup (κ t h₀)) = some (v t h₀) := by
  induction ms with
  | nil => exact absurd hmem (List.not_mem_nil _)
  | cons m ms ih =>
    rw [List.map_cons, List.lookup_cons]
    by_cases hm : h₀ = m
    · subst hm
      have : (κ t h₀ == κ t h₀) = true := (hbeq _ _ _ _).mpr ⟨rfl, rfl⟩
      rw [this]
    · cases hcmp : (κ t h₀ == κ t m)
      · have hmem' : h₀ ∈ ms := by
          rcases List.mem_cons.mp hmem with h | h
          · exact absurd h hm
          · exact h
        exact ih hmem'
      · exact absurd ((hbeq _ _ _ _).mp hcmp).2 hm

/-- Looking a quadruple key up in the association list obtained by zipping
the selected mask positions with the flattened logits: the key's own value
when its edge is in the edge list, a miss otherwise. -/
theorem lookup_flatMap_keys {α β γ κT : Type} [BEq κT]
    (E : List α) (ms : List β) (t₀ : α) (h₀ : β) (κ : α → β → κT) (v : α → β → γ)
    (hbeq : ∀ a a' b b', (κ a b == κ a' b') = true ↔ a = a' ∧ b = b')
    (hmem : h₀ ∈ ms) :
    ((E.flatMap fun t => ms.map fun h => (κ t h, v t h)).lookup (κ t₀ h₀)) =
      if t₀ ∈ E then some (v t₀ h₀) else none := by
  induction E with
  | nil => simp
  | cons e E ih =>
    rw [List.flatMap_cons, lookup_append]
    by_cases he : t₀ = e
    · subst he
      rw [lookup_map_keys_hit ms t₀ h₀ κ v hbeq hmem]
      simp
    · rw [lookup_map_keys_miss ms e t₀ h₀ κ v hbeq he, ih]
      have : (t₀ ∈ e :: E) = (t₀ ∈ E) := by
        simp [List.mem_cons, he]
      rw [show ∀ o : Option γ, (Option.none.orElse fun _ => o) = o from fun o => rfl]
      by_cases hE : t₀ ∈ E
      · rw [if_pos hE, if_pos (List.mem_cons_of_mem _ hE)]
      · rw [if_neg hE, if_neg (by simp [List.mem_cons, he, hE])]

/-- Every index triple occurs in the row-major enumeration. -/
theorem mem_allTriples (t : Fin B × Fin N × Fin N) : t ∈ allTriples B N := by
  rcases t with ⟨b, i, j⟩
  simp [allTriples, List.mem_flatMap, List.mem_map]

/-- Boolean equality of attention-matrix index quadruples is componentwise. -/
theorem quadKey_beq (t t' : Fin B × Fin N × Fin N) (h h' : Fin H) :
    (((t.1, t.2.1, t.2.2, h) == (t'.1, t'.2.1, t'.2.2, h')) = true) ↔ t = t' ∧ h = h' := by
  rcases t with ⟨b, i, j⟩
  rcases t' with ⟨b', i', j'⟩
  simp [Prod.ext_iff, and_assoc]

/-- When every adjacency entry is `0` or `1`, the nonzero entries are exactly
the entries equal to `1`, so `edges` enumerates the `1`-entries. -/
theorem edgesList_eq_of_valid (adj : Fin B → Fin N → Fin N → ℝ)
    (h01 : ∀ b i j, adj b i j = 0 ∨ adj b i j = 1) :
    edgesList adj = (allTriples B N).filter fun t => decide (adj t.1 t.2.1 t.2.2 = 1) := by
  refine List.filter_congr fun t _ => ?_
  rcases h01 t.1 t.2.1 t.2.2 with h | h <;>
    rw [decide_eq_decide] <;> rw [h] <;> norm_num

/-- The selected mask positions are the per-head expansion of the
`1`-entries, in the same order as the flattened logits. -/
theorem maskPositions_eq (adj : Fin B → Fin N → Fin N → ℝ) :
    maskPositions adj H =
      ((allTriples B N).filter fun t => decide (adj t.1 t.2.1 t.2.2 = 1)).flatMap
        fun t => (List.finRange H).map fun h => (t.1, t.2.1, t.2.2, h) := by
  rw [maskPositions, allQuads]
  refine filter_flatMap_factor _ _ _ _ fun t x hx => ?_
  rcases List.mem_map.mp hx with ⟨h, _, rfl⟩
  rfl

/-- Characterization of the masked scatter on valid (0/1) adjacency input:
the counts agree, and the dense attention matrix holds each edge's own logit
at every edge position and the sentinel everywhere else. -/
theorem scatterAttn_eq_of_valid (ℓ : GATLayer c_in c_out H concat_heads)
    (x : Fin B → Fin N → Fin c_in → ℝ) (adj : Fin B → Fin N → Fin N → ℝ)
    (h01 : ∀ b i j, adj b i j = 0 ∨ adj b i j = 1) :
    scatterAttn ℓ x adj = some fun b i j h =>
      if adj b i j = 1 then attnLogitEdge ℓ x b i j h else sentinel := by
  have hvs : logitValues ℓ x adj =
      ((allTriples B N).filter fun t => decide (adj t.1 t.2.1 t.2.2 = 1)).flatMap
        fun t => (List.finRange H).map fun h => attnLogitEdge ℓ x t.1 t.2.1 t.2.2 h := by
    rw [logitValues, edgesList_eq_of_valid adj h01]
  have hlen : (maskPositions adj H).length = (logitValues ℓ x adj).length := by
    rw [hvs, maskPositions_eq]
    simp [List.length_flatMap, Function.comp_def]
  simp only [scatterAttn]
  rw [if_pos hlen]
  refine congrArg some (funext fun b => funext fun i => funext fun j => funext fun h => ?_)
  have hzip : (maskPositions adj H).zip (logitValues ℓ x adj) =
      ((allTriples B N).filter fun t => decide (adj t.1 t.2.1 t.2.2 = 1)).flatMap
        fun t => (List.finRange H).map fun h' =>
          ((t.1, t.2.1, t.2.2, h'), attnLogitEdge ℓ x t.1 t.2.1 t.2.2 h') := by
    rw [hvs, maskPositions_eq]
    exact zip_flatMap_map _ _ _ _
  rw [hzip]
  have hkey : ((b, i, j, h) : Fin B × Fin N × Fin N × Fin H) =
      (((b, i, j) : Fin B × Fin N × Fin N).1, ((b, i, j) : Fin B × Fin N × Fin N).2.1,
        ((b, i, j) : Fin B × Fin N × Fin N).2.2, h) := rfl
  rw [hkey, lookup_flatMap_keys _ _ (b, i, j) h _
        (fun t h' => attnLogitEdge ℓ x t.1 t.2.1 t.2.2 h')
        (fun t t' h' h'' => quadKey_beq t t' h' h'') (List.mem_finRange h)]
  by_cases hedge : adj b i j = 1
  · have hmem : ((b, i, j) : Fin B × Fin N × Fin N) ∈
        (allTriples B N).filter fun t => decide (adj t.1 t.2.1 t.2.2 = 1) :=
      List.mem_filter.mpr ⟨mem_allTriples _, decide_eq_true hedge⟩
    rw [if_pos hedge, if_pos hmem]
    rfl
  · have hmem : ¬ (((b, i, j) : Fin B × Fin N × Fin N) ∈
        (allTriples B N).filter fun t => decide (adj t.1 t.2.1 t.2.2 = 1)) := by
      intro hc
      exact hedge (of_decide_eq_true (List.mem_filter.mp hc).2)
    rw [if_neg hedge, if_neg hmem]
    rfl

/-- A row of softmax probabilities over a nonempty source axis sums to `1`,
whatever the row's entries are. -/
theorem sum_attnProbs (M : Fin B → Fin N → Fin N → Fin H → ℝ)
    (b : Fin B) (i : Fin N) (h : Fin H) :
    ∑ j, attnProbs M b i j h = 1 := by
  have hne : (Finset.univ : Finset (Fin N)).Nonempty := ⟨i, Finset.mem_univ i⟩
  have hpos : 0 < ∑ k, Real.exp (M b i k h) :=
    Finset.sum_pos (fun k _ => Real.exp_pos _) hne
  simp only [attnProbs]
  rw [← Finset.sum_div, div_self (ne_of_gt hpos)]

/-- The flattened view undoes the flattened index: entry `b*N + i` of the
`[B*N, H, w]` view is node `i` of batch `b`. -/
theorem nodeFeatsFlat_flatBN
    (pf : Fin B → Fin N → Fin H → Fin (perHeadWidth c_out H concat_heads) → ℝ)
    (b : Fin B) (i : Fin N) :
    nodeFeatsFlat pf (flatBN b i) = pf b i := by
  have hN : 0 < N := i.pos
  have h1 : (b.1 * N + i.1) / N = b.1 := by
    rw [Nat.mul_comm b.1 N, Nat.mul_add_div hN, Nat.div_eq_of_lt i.2, Nat.add_zero]
  have h2 : (b.1 * N + i.1) % N = i.1 := by
    rw [Nat.mul_comm b.1 N, Nat.mul_add_mod, Nat.mod_eq_of_lt i.2]
  simp only [nodeFeatsFlat, flatBN]
  simp [Fin.ext_iff, h1, h2]

/-- Length of a `flatMap` whose inner lists are maps over a fixed list. -/
theorem length_flatMap_map {α β γ : Type} (l : List α) (ms : List β) (f : α → β → γ) :
    (l.flatMap fun a => ms.map (f a)).length = l.length * ms.length := by
  induction l with
  | nil => simp
  | cons a l ih =>
    rw [List.flatMap_cons, List.length_append, ih, List.length_map, List.length_cons]
    ring

/-- A filter by a strictly stronger predicate is strictly shorter: monotone
in general, and strict as soon as one element satisfies the weak predicate
but not the strong one. -/
theorem length_filter_lt_of_witness {α : Type} (l : List α) (p q : α → Bool)
    (himp : ∀ a ∈ l, p a = true → q a = true)
    (a₀ : α) (ha₀ : a₀ ∈ l) (hq : q a₀ = true) (hp : p a₀ = false) :
    (l.filter p).length < (l.filter q).length := by
  induction l with
  | nil => cases ha₀
  | cons a l ih =>
    have hmono : ∀ (l' : List α), (∀ a ∈ l', p a = true → q a = true) →
        (l'.filter p).length ≤ (l'.filter q).length := by
      intro l' h'
      induction l' with
      | nil => simp
      | cons a' l' ih' =>
        have ht := ih' fun x hx => h' x (List.mem_cons_of_mem _ hx)
        rw [List.filter_cons, List.filter_cons]
        by_cases hpa : p a' = true
        · rw [if_pos hpa, if_pos (h' a' (List.mem_cons_self _ _) hpa)]
          simpa using ht
        · rw [if_neg hpa]
          by_cases hqa : q a' = true
          · rw [if_pos hqa]
            exact le_trans ht (by simp)
          · rw [if_neg hqa]
            exact ht
    rcases List.mem_cons.mp ha₀ with rfl | hmem
    · rw [List.filter_cons, List.filter_cons, if_pos hq,
        if_neg (by rw [hp]; exact Bool.false_ne_true)]
      have := hmono l fun x hx => himp x (List.mem_cons_of_mem _ hx)
      simp only [List.length_cons]
      omega
    · have hlt := ih (fun x hx => himp x (List.mem_cons_of_mem _ hx)) hmem
      rw [List.filter_cons, List.filter_cons]
      by_cases hpa : p a = true
      · rw [if_pos hpa, if_pos (himp a (List.mem_cons_self _ _) hpa)]
        simpa using hlt
      · rw [if_neg hpa]
        by_cases hqa : q a = true
        · rw [if_pos hqa]
          simp only [List.length_cons]
          omega
        · rw [if_neg hqa]
          exact hlt

/-- On an adjacency batch with a nonzero entry different from `1`, the
flattened logit list is strictly longer than the selected-position list, so
the masked assignment cannot pair them; unless the single-value broadcast
applies, the scatter raises (is `none`). -/
theorem scatterAttn_eq_none_of_invalid (ℓ : GATLayer c_in c_out H concat_heads)
    (x : Fin B → Fin N → Fin c_in → ℝ) (adj : Fin B → Fin N → Fin N → ℝ)
    (hH : 0 < H)
    (hbad : ∃ b i j, adj b i j ≠ 0 ∧ adj b i j ≠ 1)
    (hone : (logitValues ℓ x adj).length ≠ 1) :
    scatterAttn ℓ x adj = none := by
  rcases hbad with ⟨b, i, j, hne0, hne1⟩
  have hmask : (maskPositions adj H).length =
      ((allTriples B N).filter fun t => decide (adj t.1 t.2.1 t.2.2 = 1)).length * H := by
    rw [maskPositions_eq, length_flatMap_map, List.length_finRange]
  have hvals : (logitValues ℓ x adj).length = (edgesList adj).length * H := by
    rw [logitValues, length_flatMap_map, List.length_finRange]
  have hflt : ((allTriples B N).filter fun t => decide (adj t.1 t.2.1 t.2.2 = 1)).length <
      (edgesList adj).length := by
    refine length_filter_lt_of_witness _ _ _ ?_ (b, i, j) (mem_allTriples _) ?_ ?_
    · intro t _ ht
      refine decide_eq_true fun hc => ?_
      rw [hc] at ht
      exact absurd (of_decide_eq_true ht) (by norm_num)
    · exact decide_eq_true hne0
    · exact decide_eq_false hne1
  have hlt : (maskPositions adj H).length < (logitValues ℓ x adj).length := by
    rw [hmask, hvals]
    exact (Nat.mul_lt_mul_right hH).mpr hflt
  simp only [scatterAttn]
  rw [if_neg (by omega), if_neg hone]

/-!
## Claim theorems
-/

/-- C1: on a valid 0/1 adjacency batch in which every destination row has at
least one `1`, the attention probabilities computed inside `forward` sum to
`1` over the source-node axis, for every batch index, destination node and
head. -/
theorem c1_attention_rows_sum_to_one (ℓ : GATLayer c_in c_out H concat_heads)
    (x : Fin B → Fin N → Fin c_in → ℝ) (adj : Fin B → Fin N → Fin N → ℝ)
    (h01 : ∀ b i j, adj b i j = 0 ∨ adj b i j = 1)
    (hrow : ∀ b i, ∃ j, adj b i j = 1) :
    ∃ M, scatterAttn ℓ x adj = some M ∧
      ∀ (b : Fin B) (i : Fin N) (h : Fin H), ∑ j, attnProbs M b i j h = 1 := by
  clear hrow
  exact ⟨_, scatterAttn_eq_of_valid ℓ x adj h01, fun b i h => sum_attnProbs _ b i h⟩

/-- C2: for every edge `(b, i, j)` (adjacency row index `i` the destination,
column index `j` the source) and head `h`, the logit computed in `forward`
is the leaky rectifier applied to the dot product of head `h`'s attention
vector with the concatenation of the destination's projected features
followed by the source's projected features. -/
theorem c2_edge_logit_formula (ℓ : GATLayer c_in c_out H concat_heads)
    (x : Fin B → Fin N → Fin c_in → ℝ) (adj : Fin B → Fin N → Fin N → ℝ)
    (b : Fin B) (i j : Fin N) (h : Fin H) (hedge : adj b i j = 1) :
    attnLogitEdge ℓ x b i j h =
      leakyReLU ℓ.alpha
        (∑ c : Fin (2 * perHeadWidth c_out H concat_heads),
          concatVec (projectFeats ℓ x b i h) (projectFeats ℓ x b j h) c * ℓ.a h c) := by
  clear hedge
  simp only [attnLogitEdge, nodeFeatsFlat_flatBN]

/-- C3: on a valid 0/1 adjacency batch, the dense `[B, N, N, H]` attention
matrix holds each edge's own logit at every edge position and the sentinel
`-9e15` at every non-edge position; after the softmax every non-edge
position gets a strictly positive probability (not exactly `0`) that is at
most `exp (sentinel - logit)` for any edge logit present in the same row. -/
theorem c3_mask_and_nonedge_probs (ℓ : GATLayer c_in c_out H concat_heads)
    (x : Fin B → Fin N → Fin c_in → ℝ) (adj : Fin B → Fin N → Fin N → ℝ)
    (h01 : ∀ b i j, adj b i j = 0 ∨ adj b i j = 1) :
    ∃ M, scatterAttn ℓ x adj = some M ∧
      (∀ b i j h, adj b i j = 1 → M b i j h = attnLogitEdge ℓ x b i j h) ∧
      (∀ b i j h, adj b i j = 0 → M b i j h = sentinel) ∧
      (∀ b i j h, adj b i j = 0 → 0 < attnProbs M b i j h) ∧
      (∀ (b : Fin B) (i j q : Fin N) (h : Fin H), adj b i j = 0 → adj b i q = 1 →
        attnProbs M b i j h ≤ Real.exp (sentinel - attnLogitEdge ℓ x b i q h)) := by
  refine ⟨_, scatterAttn_eq_of_valid ℓ x adj h01, fun b i j h hij => ?_,
    fun b i j h hij => ?_, fun b i j h hij => ?_, fun b i j q h hij hiq => ?_⟩
  · rw [if_pos hij]
  · rw [if_neg (by rw [hij]; norm_num)]
  · exact div_pos (Real.exp_pos _)
      (Finset.sum_pos (fun k _ => Real.exp_pos _) ⟨i, Finset.mem_univ i⟩)
  · have hMj : (if adj b i j = 1 then attnLogitEdge ℓ x b i j h else sentinel) = sentinel := by
      rw [if_neg (by rw [hij]; norm_num)]
    have hMq : (if adj b i q = 1 then attnLogitEdge ℓ x b i q h else sentinel) =
        attnLogitEdge ℓ x b i q h := by
      rw [if_pos hiq]
    simp only [attnProbs, hMj]
    rw [Real.exp_sub]
    refine div_le_div_of_nonneg_left (le_of_lt (Real.exp_pos _)) (Real.exp_pos _) ?_
    calc Real.exp (attnLogitEdge ℓ x b i q h)
        = Real.exp (if adj b i q = 1 then attnLogitEdge ℓ x b i q h else sentinel) := by
          rw [hMq]
      _ ≤ ∑ k, Real.exp (if adj b i k = 1 then attnLogitEdge ℓ x b i k h else sentinel) :=
          Finset.single_le_sum
            (f := fun k => Real.exp (if adj b i k = 1 then attnLogitEdge ℓ x b i k h else sentinel))
            (fun k _ => le_of_lt (Real.exp_pos _)) (Finset.mem_univ q)

/-- C4: with `concat_heads` true, construction fails exactly when `c_out` is
not divisible by `num_heads`, and the per-head width is `c_out / num_heads`;
with `concat_heads` false no check is performed, construction always
succeeds, and the per-head width is `c_out` itself. -/
theorem c4_init_divisibility (c_in c_out num_heads : ℕ) (hpos : 0 < num_heads) (alpha : ℝ)
    (W₁ : Fin (perHeadWidth c_out num_heads true * num_heads) → Fin c_in → ℝ)
    (a₁ : Fin num_heads → Fin (2 * perHeadWidth c_out num_heads true) → ℝ)
    (W₂ : Fin (perHeadWidth c_out num_heads false * num_heads) → Fin c_in → ℝ)
    (a₂ : Fin num_heads → Fin (2 * perHeadWidth c_out num_heads false) → ℝ) :
    (GATLayer.init c_in c_out num_heads true alpha W₁ a₁ = none ↔ c_out % num_heads ≠ 0) ∧
    perHeadWidth c_out num_heads true = c_out / num_heads ∧
    GATLayer.init c_in c_out num_heads false alpha W₂ a₂ = some ⟨alpha, W₂, a₂⟩ ∧
    perHeadWidth c_out num_heads false = c_out := by
  clear hpos
  refine ⟨?_, rfl, ?_, rfl⟩
  · by_cases hm : c_out % num_heads = 0 <;> simp [GATLayer.init, hm]
  · simp [GATLayer.init]

/-- C5: the tensor `forward` returns has width `c_out` in both branches:
`(c_out / num_heads) * num_heads = c_out` after the concatenating reshape
(which places head `h`'s slice at offset `h * w`), and `c_out` directly in
the averaging branch (whose entries are the mean over heads); the batch and
node axes are untouched in both. -/
theorem c5_output_shape (c_out H : ℕ) (hdvd : H ∣ c_out) :
    (outWidth c_out H true = c_out ∧ outWidth c_out H false = c_out) ∧
    (∀ (B N w' : ℕ) (t : Fin B → Fin N → Fin H → Fin w' → ℝ) (b : Fin B) (n : Fin N)
      (h : Fin H) (c : Fin w'), combineHeads true t b n (flatHW h c) = t b n h c) ∧
    (∀ (B N w' : ℕ) (t : Fin B → Fin N → Fin H → Fin w' → ℝ) (b : Fin B) (n : Fin N)
      (c : Fin w'), combineHeads false t b n c = (∑ h, t b n h c) / (H : ℝ)) := by
  refine ⟨⟨?_, rfl⟩, ?_, fun B N w' t b n c => rfl⟩
  · simp only [outWidth, perHeadWidth, cond_true, if_true]
    exact Nat.div_mul_cancel hdvd
  · intro B N w' t b n h c
    have hw : 0 < w' := c.pos
    have h1 : (h.1 * w' + c.1) / w' = h.1 := by
      rw [Nat.mul_comm h.1 w', Nat.mul_add_div hw, Nat.div_eq_of_lt c.2, Nat.add_zero]
    have h2 : (h.1 * w' + c.1) % w' = c.1 := by
      rw [Nat.mul_comm h.1 w', Nat.mul_add_mod, Nat.mod_eq_of_lt c.2]
    simp only [combineHeads, flatHW]
    simp [Fin.ext_iff, h1, h2]

/-- C7: on a single-node graph whose adjacency is the (1×1) identity, the
self-loop edge gets attention probability `1`, the per-head weighted sum
returns the node's own projected features untouched, and `forward` returns
exactly those projected features combined across heads. -/
theorem c7_self_loop_identity (ℓ : GATLayer c_in c_out H concat_heads)
    (x : Fin B → Fin 1 → Fin c_in → ℝ) (adj : Fin B → Fin 1 → Fin 1 → ℝ)
    (hadj : ∀ b i j, adj b i j = 1) :
    ∃ M, scatterAttn ℓ x adj = some M ∧
      (∀ (b : Fin B) (h : Fin H), attnProbs M b 0 0 h = 1) ∧
      headOut (attnProbs M) (projectFeats ℓ x) = projectFeats ℓ x ∧
      ∀ flag, ℓ.forward x adj flag =
        some (combineHeads concat_heads (projectFeats ℓ x)) := by
  have h01 : ∀ b i j, adj b i j = 0 ∨ adj b i j = 1 := fun b i j => Or.inr (hadj b i j)
  have hscat := scatterAttn_eq_of_valid ℓ x adj h01
  refine ⟨_, hscat, ?_, ?_, ?_⟩
  · intro b h
    simp only [attnProbs, Fin.sum_univ_one]
    exact div_self (ne_of_gt (Real.exp_pos _))
  · funext b i h c
    have hi : i = 0 := Fin.eq_zero i
    subst hi
    simp only [headOut, Fin.sum_univ_one, attnProbs, Fin.sum_univ_one]
    rw [div_self (ne_of_gt (Real.exp_pos _)), one_mul]
  · intro flag
    have hout : headOut (attnProbs fun b i j h =>
        if adj b i j = 1 then attnLogitEdge ℓ x b i j h else sentinel)
        (projectFeats ℓ x) = projectFeats ℓ x := by
      funext b i h c
      have hi : i = 0 := Fin.eq_zero i
      subst hi
      simp only [headOut, Fin.sum_univ_one, attnProbs, Fin.sum_univ_one]
      rw [div_self (ne_of_gt (Real.exp_pos _)), one_mul]
    simp [GATLayer.forward, forwardFull, hscat, hout]

/-- C8: the debug flag changes nothing about the value `forward` returns; its
only observable product is the printed tensor, which is exactly the attention
probabilities permuted to `[B, num_heads, N, N]` when the flag is on and
nothing when it is off. -/
theorem c8_debug_flag_no_effect (ℓ : GATLayer c_in c_out H concat_heads)
    (x : Fin B → Fin N → Fin c_in → ℝ) (adj : Fin B → Fin N → Fin N → ℝ) :
    ℓ.forward x adj true = ℓ.forward x adj false ∧
    forwardFull ℓ x adj true = (scatterAttn ℓ x adj).map (fun M =>
      (combineHeads concat_heads (headOut (attnProbs M) (projectFeats ℓ x)),
        some fun b h i j => attnProbs M b i j h)) ∧
    forwardFull ℓ x adj false = (scatterAttn ℓ x adj).map (fun M =>
      (combineHeads concat_heads (headOut (attnProbs M) (projectFeats ℓ x)), none)) := by
  cases hscat : scatterAttn ℓ x adj <;>
    simp [GATLayer.forward, forwardFull, hscat]

/-- C9: `forward` is a pure, stateless-per-call computation: threading the
caller-visible state (the learned parameters and both caller-owned input
tensors) through the call leaves that state unchanged, and the returned
value is a function of that state alone. -/
theorem c9_forward_pure_frame (env : GATEnv B N c_in c_out H concat_heads) (flag : Bool) :
    forwardEnv env flag = (env, env.layer.forward env.nodeFeats env.adjMatrix flag) := by
  cases hscat : scatterAttn env.layer env.nodeFeats env.adjMatrix <;>
    simp [forwardEnv, GATLayer.forward, forwardFull, hscat]

/-- C10: on a valid 0/1 adjacency whose row `(b₀, i₀)` is all zeros,
`forward` still succeeds; the softmax of the all-sentinel row is the uniform
distribution `1/N`, and that destination's per-head output is the unweighted
mean of all nodes' projected features. -/
theorem c10_isolated_node_uniform (ℓ : GATLayer c_in c_out H concat_heads)
    (x : Fin B → Fin N → Fin c_in → ℝ) (adj : Fin B → Fin N → Fin N → ℝ)
    (h01 : ∀ b i j, adj b i j = 0 ∨ adj b i j = 1)
    (b₀ : Fin B) (i₀ : Fin N) (hrow : ∀ j, adj b₀ i₀ j = 0) :
    ∃ M, scatterAttn ℓ x adj = some M ∧
      (∀ flag, ℓ.forward x adj flag ≠ none) ∧
      (∀ (j : Fin N) (h : Fin H), attnProbs M b₀ i₀ j h = 1 / (N : ℝ)) ∧
      (∀ (h : Fin H) (c : Fin (perHeadWidth c_out H concat_heads)),
        headOut (attnProbs M) (projectFeats ℓ x) b₀ i₀ h c =
          (∑ j, projectFeats ℓ x b₀ j h c) / (N : ℝ)) := by
  have hscat := scatterAttn_eq_of_valid ℓ x adj h01
  have hM : ∀ (j : Fin N) (h : Fin H),
      (if adj b₀ i₀ j = 1 then attnLogitEdge ℓ x b₀ i₀ j h else sentinel) = sentinel :=
    fun j h => by rw [if_neg (by rw [hrow j]; norm_num)]
  have hprob : ∀ (j : Fin N) (h : Fin H),
      attnProbs (fun b i j h => if adj b i j = 1 then attnLogitEdge ℓ x b i j h else sentinel)
        b₀ i₀ j h = 1 / (N : ℝ) := by
    intro j h
    simp only [attnProbs, hM]
    rw [Finset.sum_const, Finset.card_univ, Fintype.card_fin, nsmul_eq_mul,
      div_mul_eq_div_div_swap, div_self (ne_of_gt (Real.exp_pos _))]
  refine ⟨_, hscat, ?_, hprob, ?_⟩
  · intro flag
    simp [GATLayer.forward, forwardFull, hscat]
  · intro h c
    simp only [headOut]
    rw [Finset.sum_congr rfl fun j _ => by rw [hprob j h]]
    rw [← Finset.mul_sum, one_div, inv_mul_eq_div]

/-- C6 (amended): an adjacency entry that is nonzero but not `1` makes the
flattened logit list strictly longer than the mask's selected-position list
(the entry is enumerated by `nonzero` but excluded by the `== 1` mask), so
unless the whole value list has length `1` (the degenerate broadcastable
case) the masked assignment fails with a runtime broadcast error and
`forward` raises instead of returning a tensor. -/
theorem c6_scatter_mismatch_fails (ℓ : GATLayer c_in c_out H concat_heads)
    (x : Fin B → Fin N → Fin c_in → ℝ) (adj : Fin B → Fin N → Fin N → ℝ)
    (hH : 0 < H)
    (hbad : ∃ b i j, adj b i j ≠ 0 ∧ adj b i j ≠ 1)
    (hone : (logitValues ℓ x adj).length ≠ 1) :
    scatterAttn ℓ x adj = none ∧ ∀ flag, ℓ.forward x adj flag = none := by
  have hscat := scatterAttn_eq_none_of_invalid ℓ x adj hH hbad hone
  exact ⟨hscat, fun flag => by simp [GATLayer.forward, forwardFull, hscat]⟩

/-- A concrete 1-batch, 2-node adjacency holding the value `2` at position
`(0, 0, 1)` and the values `1, 0, 1` elsewhere. -/
def badAdj : Fin 1 → Fin 2 → Fin 2 → ℝ := fun _ i j =>
  if i.1 = 0 then (if j.1 = 0 then 1 else 2) else (if j.1 = 0 then 0 else 1)

/-- A concrete all-zero feature batch on 1 batch, 2 nodes, 1 channel. -/
def x12 : Fin 1 → Fin 2 → Fin 1 → ℝ := fun _ _ _ => 0

/-- A concrete single-head averaging layer with zero weights. -/
def oneLayer : GATLayer 1 1 1 false := ⟨1 / 5, fun _ _ => 0, fun _ _ => 0⟩

/-- On `badAdj`, `nonzero` enumerates three edges (the `2` entry included). -/
theorem edgesList_badAdj : edgesList badAdj =
    [((0 : Fin 1), (0 : Fin 2), (0 : Fin 2)), (0, 0, 1), (0, 1, 1)] := by
  have h00 : badAdj 0 0 0 ≠ 0 := by norm_num [badAdj]
  have h01 : badAdj 0 0 1 ≠ 0 := by norm_num [badAdj]
  have h10 : ¬ badAdj 0 1 0 ≠ 0 := by norm_num [badAdj]
  have h11 : badAdj 0 1 1 ≠ 0 := by norm_num [badAdj]
  rw [edgesList, show allTriples 1 2 =
    [((0 : Fin 1), (0 : Fin 2), (0 : Fin 2)), (0, 0, 1), (0, 1, 0), (0, 1, 1)] from rfl]
  simp only [List.filter_cons, List.filter_nil]
  rw [decide_eq_true h00, decide_eq_true h01, decide_eq_false h10, decide_eq_true h11]
  simp

/-- C6 counterexample: on `badAdj` (entry `2` at `(0, 0, 1)`), `forward` does
not silently return a tensor with the sentinel at that position — the masked
scatter has 3 values for 2 selected positions and the call fails. -/
theorem c6_counterexample :
    scatterAttn oneLayer x12 badAdj = none ∧
    GATLayer.forward oneLayer x12 badAdj false = none := by
  have hone : (logitValues oneLayer x12 badAdj).length ≠ 1 := by
    rw [logitValues, length_flatMap_map, edgesList_badAdj]
    simp
  have hscat := scatterAttn_eq_none_of_invalid oneLayer x12 badAdj Nat.one_pos
    ⟨0, 0, 1, by norm_num [badAdj], by norm_num [badAdj]⟩ hone
  exact ⟨hscat, by simp [GATLayer.forward, forwardFull, hscat]⟩

/-- C6 witness: the amended claim applied at the concrete invalid input. -/
theorem c6_witness :
    0 < 1 ∧ (badAdj 0 0 1 ≠ 0 ∧ badAdj 0 0 1 ≠ 1) ∧
      (scatterAttn oneLayer x12 badAdj = none ∧
        ∀ flag, GATLayer.forward oneLayer x12 badAdj flag = none) := by
  refine ⟨Nat.one_pos, ⟨by norm_num [badAdj], by norm_num [badAdj]⟩, ?_⟩
  exact c6_scatter_mismatch_fails oneLayer x12 badAdj Nat.one_pos
    ⟨0, 0, 1, by norm_num [badAdj], by norm_num [badAdj]⟩
    (by rw [logitValues, length_flatMap_map, edgesList_badAdj]; simp)

/-- A concrete 1-batch, single-node adjacency: the identity (one self-loop). -/
def oneAdj : Fin 1 → Fin 1 → Fin 1 → ℝ := fun _ _ _ => 1

/-- A concrete all-zero feature batch on 1 batch, 1 node, 1 channel. -/
def x11 : Fin 1 → Fin 1 → Fin 1 → ℝ := fun _ _ _ => 0

/-- A concrete 1-batch, 2-node identity adjacency (self-loops only). -/
def idAdj2 : Fin 1 → Fin 2 → Fin 2 → ℝ := fun _ i j => if i = j then 1 else 0

/-- A concrete 1-batch, 2-node adjacency whose second row is all zeros. -/
def rowZeroAdj : Fin 1 → Fin 2 → Fin 2 → ℝ := fun _ i _ => if i.1 = 0 then 1 else 0

/-- `idAdj2` is 0/1-valued. -/
theorem idAdj2_valid : ∀ (b : Fin 1) (i j : Fin 2), idAdj2 b i j = 0 ∨ idAdj2 b i j = 1 := by
  intro b i j
  by_cases h : i = j
  · exact Or.inr (by simp [idAdj2, h])
  · exact Or.inl (by simp [idAdj2, h])

/-- `rowZeroAdj` is 0/1-valued. -/
theorem rowZeroAdj_valid :
    ∀ (b : Fin 1) (i j : Fin 2), rowZeroAdj b i j = 0 ∨ rowZeroAdj b i j = 1 := by
  intro b i j
  by_cases h : i.1 = 0
  · exact Or.inr (by simp [rowZeroAdj, h])
  · exact Or.inl (by simp [rowZeroAdj, h])

/-- C1 witness: the row-normalization theorem applied to the concrete
single-node self-loop input. -/
theorem c1_witness :
    (∀ (b : Fin 1) (i j : Fin 1), oneAdj b i j = 0 ∨ oneAdj b i j = 1) ∧
    (∀ (b : Fin 1) (i : Fin 1), ∃ j, oneAdj b i j = 1) ∧
    ∃ M, scatterAttn oneLayer x11 oneAdj = some M ∧
      ∀ (b : Fin 1) (i : Fin 1) (h : Fin 1), ∑ j, attnProbs M b i j h = 1 :=
  ⟨fun _ _ _ => Or.inr rfl, fun _ _ => ⟨0, rfl⟩,
    c1_attention_rows_sum_to_one oneLayer x11 oneAdj
      (fun _ _ _ => Or.inr rfl) (fun _ _ => ⟨0, rfl⟩)⟩

/-- C2 witness: the logit formula applied to the concrete self-loop edge. -/
theorem c2_witness :
    oneAdj 0 0 0 = 1 ∧
    attnLogitEdge oneLayer x11 0 0 0 0 =
      leakyReLU oneLayer.alpha
        (∑ c : Fin (2 * perHeadWidth 1 1 false),
          concatVec (projectFeats oneLayer x11 0 0 0) (projectFeats oneLayer x11 0 0 0) c *
            oneLayer.a 0 c) :=
  ⟨rfl, c2_edge_logit_formula oneLayer x11 oneAdj 0 0 0 0 rfl⟩

/-- C3 witness: the mask/non-edge theorem applied to the concrete two-node
identity adjacency. -/
theorem c3_witness :
    (∀ (b : Fin 1) (i j : Fin 2), idAdj2 b i j = 0 ∨ idAdj2 b i j = 1) ∧
    ∃ M, scatterAttn oneLayer x12 idAdj2 = some M ∧
      (∀ b i j h, idAdj2 b i j = 1 → M b i j h = attnLogitEdge oneLayer x12 b i j h) ∧
      (∀ b i j h, idAdj2 b i j = 0 → M b i j h = sentinel) ∧
      (∀ b i j h, idAdj2 b i j = 0 → 0 < attnProbs M b i j h) ∧
      (∀ (b : Fin 1) (i j q : Fin 2) (h : Fin 1), idAdj2 b i j = 0 → idAdj2 b i q = 1 →
        attnProbs M b i j h ≤ Real.exp (sentinel - attnLogitEdge oneLayer x12 b i q h)) :=
  ⟨idAdj2_valid, c3_mask_and_nonedge_probs oneLayer x12 idAdj2 idAdj2_valid⟩

/-- C4 witness: the construction check at `c_out = 4`, `num_heads = 2`. -/
theorem c4_witness :
    0 < 2 ∧
    ((GATLayer.init 1 4 2 true 0 (fun _ _ => 0) (fun _ _ => 0) = none ↔ 4 % 2 ≠ 0) ∧
      perHeadWidth 4 2 true = 4 / 2 ∧
      GATLayer.init 1 4 2 false 0 (fun _ _ => 0) (fun _ _ => 0) =
        some ⟨0, fun _ _ => 0, fun _ _ => 0⟩ ∧
      perHeadWidth 4 2 false = 4) :=
  ⟨by norm_num, c4_init_divisibility 1 4 2 (by norm_num) 0 _ _ _ _⟩

/-- C5 witness: the output-width theorem at `c_out = 4`, `num_heads = 2`. -/
theorem c5_witness :
    2 ∣ 4 ∧
    ((outWidth 4 2 true = 4 ∧ outWidth 4 2 false = 4) ∧
      (∀ (B N w' : ℕ) (t : Fin B → Fin N → Fin 2 → Fin w' → ℝ) (b : Fin B) (n : Fin N)
        (h : Fin 2) (c : Fin w'), combineHeads true t b n (flatHW h c) = t b n h c) ∧
      (∀ (B N w' : ℕ) (t : Fin B → Fin N → Fin 2 → Fin w' → ℝ) (b : Fin B) (n : Fin N)
        (c : Fin w'), combineHeads false t b n c = (∑ h, t b n h c) / (2 : ℝ))) :=
  ⟨⟨2, rfl⟩, by
    have h := c5_output_shape 4 2 ⟨2, rfl⟩
    simpa using h⟩

/-- C7 witness: the self-loop theorem applied to the concrete one-node
identity input. -/
theorem c7_witness :
    (∀ (b : Fin 1) (i j : Fin 1), oneAdj b i j = 1) ∧
    ∃ M, scatterAttn oneLayer x11 oneAdj = some M ∧
      (∀ (b : Fin 1) (h : Fin 1), attnProbs M b 0 0 h = 1) ∧
      headOut (attnProbs M) (projectFeats oneLayer x11) = projectFeats oneLayer x11 ∧
      ∀ flag, oneLayer.forward x11 oneAdj flag =
        some (combineHeads false (projectFeats oneLayer x11)) :=
  ⟨fun _ _ _ => rfl, c7_self_loop_identity oneLayer x11 oneAdj fun _ _ _ => rfl⟩

/-- C10 witness: the isolated-node theorem applied to the concrete adjacency
whose second row is all zeros. -/
theorem c10_witness :
    (∀ (b : Fin 1) (i j : Fin 2), rowZeroAdj b i j = 0 ∨ rowZeroAdj b i j = 1) ∧
    (∀ j, rowZeroAdj 0 1 j = 0) ∧
    ∃ M, scatterAttn oneLayer x12 rowZeroAdj = some M ∧
      (∀ flag, oneLayer.forward x12 rowZeroAdj flag ≠ none) ∧
      (∀ (j : Fin 2) (h : Fin 1), attnProbs M 0 1 j h = 1 / (2 : ℝ)) ∧
      (∀ (h : Fin 1) (c : Fin (perHeadWidth 1 1 false)),
        headOut (attnProbs M) (projectFeats oneLayer x12) 0 1 h c =
          (∑ j, projectFeats oneLayer x12 0 j h c) / (2 : ℝ)) := by
  have hrow : ∀ j, rowZeroAdj 0 1 j = 0 := fun j => by simp [rowZeroAdj]
  refine ⟨rowZeroAdj_valid, hrow, ?_⟩
  have h := c10_isolated_node_uniform oneLayer x12 rowZeroAdj rowZeroAdj_valid 0 1 hrow
  simpa using h
